import Mathlib

/-!
Verification of the directory-to-TeamCity group synchroniser
(`teamcity-ldap-sync-py3.py`).

The development shallowly embeds the program's data model and operations:

* the reconciliation diff computed by the two loops of
  `TeamCityClient.start_sync` (source lines 441-449) becomes `toAdd` /
  `toRemove` and the per-group mutation plan `groupPlan`;
* the TeamCity REST state (groups, users, memberships) becomes `TCState`,
  the client-side caches `self.tc_groups` / `self.tc_users` become
  `TCClient`, and each REST helper of `TeamCityClient` becomes a function
  on these states (fallible calls return `Option`, where `none` stands for
  an uncaught Python exception terminating the run);
* the LDAP resolution code of `LDAPConn.get_group_members` and
  `LDAPConn.get_groups_with_wildcard` is embedded with the directory
  server abstracted as the query functions the code invokes.

Python strings are Lean `String`s; Python dicts keyed by username are
association lists built with `dictInsert` (insertion order preserved,
later assignment to the same key overwrites, as for a Python dict).
-/

/-- Python `str.lower()` as used on source line 185 (`username.lower()`),
acting per character. -/
def lower (s : String) : String := ⟨s.data.map Char.toLower⟩

/-- Python slicing `group_name[:16]` used to derive the TeamCity group key
at source line 402. -/
def pyTake (s : String) (n : Nat) : String := ⟨s.data.take n⟩

/-- Python substring test `pat in s`, used at source line 348
(`'.Zabbix.' in group['name']`). -/
def containsSub (pat s : String) : Bool :=
  s.data.tails.any (fun t => pat.data.isPrefixOf t)

/-- Python dict assignment `d[k] = v` on an insertion-ordered dictionary
represented as an association list: an existing key keeps its position and
gets the new value, a new key is appended. -/
def dictInsert (d : List (String × String)) (k v : String) : List (String × String) :=
  if d.any (fun p => p.1 == k) then d.map (fun p => if p.1 == k then (k, v) else p)
  else d ++ [(k, v)]

/-- Usernames the sync adds to a group: source lines 442-444
(`for user in ldap_group_users.keys(): if user not in tc_group_users`).
This is the `toAdd` component of the reconciliation diff. -/
def toAdd (desired observed : List String) : List String :=
  desired.filter (fun u => !(observed.contains u))

/-- Usernames the sync removes from a group: source lines 447-449
(`for user in tc_group_users: if user not in ldap_group_users.keys()`).
This is the `toRemove` component of the reconciliation diff. -/
def toRemove (desired observed : List String) : List String :=
  observed.filter (fun u => !(desired.contains u))

/-- The four kinds of TeamCity mutations issued by `start_sync`. -/
inductive Op where
  | createGroup (group : String)
  | createUser (user : String)
  | addMembership (group user : String)
  | removeMembership (group user : String)
deriving DecidableEq, Repr

/-- The membership part of the mutation plan for one group: all additions
(source lines 442-444) followed by all removals (source lines 447-449). -/
def groupPlan (group : String) (desired observed : List String) : List Op :=
  (toAdd desired observed).map (Op.addMembership group)
    ++ (toRemove desired observed).map (Op.removeMembership group)

/-- One TeamCity user group as the REST API reports it: a display name and
the key derived from it at creation time (source lines 400-403). -/
structure TCGroup where
  name : String
  key : String
deriving DecidableEq, Repr

/-- The TeamCity server state visible to the sync: the full group list
(`GET userGroups`), the user list (`GET users`), and group membership as
(group name, username) pairs (each user's group list, `GET users/u/groups`). -/
structure TCState where
  groups : List TCGroup
  users : List String
  membership : List (String × String)
deriving DecidableEq, Repr

/-- Members of one group as the server reports them. -/
def membersOf (group_name : String) (s : TCState) : List String :=
  (s.membership.filter (fun p => p.1 == group_name)).map (fun p => p.2)

/-- Source lines 345-348, `TeamCityClient.get_tc_groups`: the client keeps
only the server groups whose name contains the substring `.Zabbix.`. -/
def get_tc_groups (s : TCState) : List TCGroup :=
  s.groups.filter (fun g => containsSub ".Zabbix." g.name)

/-- The client-side caches `self.tc_groups` and `self.tc_users` set in
`TeamCityClient.__init__` (source lines 342-343). -/
structure TCClient where
  tc_groups : List TCGroup
  tc_users : List String
deriving DecidableEq, Repr

/-- Source lines 400-403, `TeamCityClient.create_group`: posts a new group
whose key is the name truncated to 16 characters.  The HTTP response is
not inspected by the code. -/
def create_group (group_name : String) (s : TCState) : TCState :=
  { s with groups := s.groups ++ [⟨group_name, pyTake group_name 16⟩] }

/-- Source lines 405-411, `TeamCityClient.create_user`: posts a new user.
The profile attributes (display name, email) are carried by the source but
referenced by no claim, so the embedding keeps the username.  The HTTP
response is not inspected by the code. -/
def create_user (username : String) (s : TCState) : TCState :=
  { s with users := s.users ++ [username] }

/-- Source lines 363-373, `TeamCityClient.get_users_from_group`: when the
cached (Zabbix-filtered) group list is empty the function returns `[]`;
otherwise it looks the group's key up in that cache with
`[... for group in self.tc_groups if group['name'] == group_name][0]`,
which raises `IndexError` (modelled as `none`) when no cached group has
the requested name, and finally fetches the group's members by key. -/
def get_users_from_group (c : TCClient) (s : TCState) (group_name : String) :
    Option (List String) :=
  if c.tc_groups.isEmpty then some []
  else
    match c.tc_groups.filter (fun g => g.name == group_name) with
    | [] => none
    | g :: _ =>
      match s.groups.filter (fun sg => sg.key == g.key) with
      | [] => none
      | sg :: _ => some (membersOf sg.name s)

/-- Source lines 375-387, `TeamCityClient.add_user_to_group`: resolves the
group's href/key from the cached group list with `[...][0]` (IndexError,
modelled `none`, when the name is absent from the cache), then PUTs the
user's group list extended by this group. -/
def add_user_to_group (c : TCClient) (s : TCState) (user group_name : String) :
    Option TCState :=
  match c.tc_groups.filter (fun g => g.name == group_name) with
  | [] => none
  | _ :: _ => some { s with membership := s.membership ++ [(group_name, user)] }

/-- Source lines 389-398, `TeamCityClient.remove_user_from_group`: PUTs the
user's group list with every entry named `group_name` removed.  No cache
lookup is involved, so the call cannot raise. -/
def remove_user_from_group (s : TCState) (user group_name : String) : TCState :=
  { s with membership := s.membership.filter (fun p => !(p.1 == group_name && p.2 == user)) }

/-- The addition loop of source lines 442-444, applying
`add_user_to_group` to each user in turn; an exception in any call aborts
the run (`none`). -/
def addAll (c : TCClient) (group : String) : List String → TCState → Option TCState
  | [], s => some s
  | u :: rest, s =>
    match add_user_to_group c s u group with
    | none => none
    | some s' => addAll c group rest s'

/-- The removal loop of source lines 447-449. -/
def removeAll (group : String) : List String → TCState → TCState
  | [], s => s
  | u :: rest, s => removeAll group rest (remove_user_from_group s u group)

/-- One iteration of the `start_sync` loop (source lines 415-449) for one
configured group.  `ldap_group_users` is the result of
`LDAPConn.get_group_members` (the username-to-DN dict, or `None` when the
group was not found in the directory).  In order, as in the source: create
the group when its name is not among the cached group names and refresh the
cache (lines 420-424); then iterate the dict — on `None` this is
`None.items()`, an uncaught `AttributeError` (`none`); create every desired
user whose login is not in the cached user list (lines 426-436); fetch the
group's observed members (line 439); apply all additions (lines 441-444)
and then all removals (lines 446-449). -/
def syncGroup (ldap_group_users : Option (List (String × String))) (group : String)
    (c : TCClient) (s : TCState) : Option (List Op × TCClient × TCState) :=
  let created :=
    if (c.tc_groups.map TCGroup.name).contains group then (([] : List Op), c, s)
    else
      let s' := create_group group s
      ([Op.createGroup group], { c with tc_groups := get_tc_groups s' }, s')
  match ldap_group_users with
  | none => none
  | some dusers =>
    let c1 := created.2.1
    let s1 := created.2.2
    let newUsers := (dusers.map Prod.fst).filter (fun login => !(c1.tc_users.contains login))
    let s2 := newUsers.foldl (fun st login => create_user login st) s1
    match get_users_from_group c1 s2 group with
    | none => none
    | some tc_group_users =>
      let dkeys := dusers.map Prod.fst
      match addAll c1 group (toAdd dkeys tc_group_users) s2 with
      | none => none
      | some s3 =>
        let s4 := removeAll group (toRemove dkeys tc_group_users) s3
        some (created.1 ++ newUsers.map Op.createUser ++ groupPlan group dkeys tc_group_users,
              c1, s4)

/-- The `start_sync` loop over all configured groups (source lines
413-449).  `resolve` is `LDAPConn.get_group_members`; the trace of issued
mutations is accumulated, and an uncaught exception in any group's pass
terminates the whole run (`none`). -/
def start_sync (resolve : String → Option (List (String × String))) :
    List String → TCClient → TCState → List Op → Option (List Op × TCClient × TCState)
  | [], c, s, acc => some (acc, c, s)
  | g :: rest, c, s, acc =>
    match syncGroup (resolve g) g c s with
    | none => none
    | some (ops, c', s') => start_sync resolve rest c' s' (acc ++ ops)

/-- Server-state effect of one mutation, as performed by the corresponding
`TeamCityClient` method when its HTTP call succeeds. -/
def applyOp (s : TCState) (op : Op) : TCState :=
  match op with
  | Op.createGroup g => create_group g s
  | Op.createUser u => create_user u s
  | Op.addMembership g u => { s with membership := s.membership ++ [(g, u)] }
  | Op.removeMembership g u => remove_user_from_group s u g

/-- Effect of a mutation sequence on the server state. -/
def applyOps (ops : List Op) (s : TCState) : TCState := ops.foldl applyOp s

/-- One directory entry for a group, as returned by the wildcard search of
`LDAPConn.get_groups_with_wildcard` (source lines 219-239): the search is
asked for the `cn` attribute of every group matching the filter. -/
structure LdapGroupEntry where
  dn : String
  cn : String
deriving DecidableEq, Repr

/-- Source lines 219-239, `LDAPConn.get_groups_with_wildcard`: collect the
`cn` of every directory group matching the wildcard filter; a pattern with
no matches yields `[]` after printing a skip message (it does not raise).
`search` abstracts the directory query `self.conn.search` built from
`self.group_filter % groups_wildcard`. -/
def get_groups_with_wildcard (search : String → List LdapGroupEntry)
    (groups_wildcard : String) : List String :=
  (search groups_wildcard).foldl (fun result_groups g => result_groups ++ [g.cn]) []

/-- Source lines 317-331, `TeamCityLDAPConf.set_groups_with_wildcard`:
expand every configured pattern and concatenate the matches; only when the
concatenation over all patterns is empty does the run abort with
`SystemExit` (modelled as `none`). -/
def set_groups_with_wildcard (search : String → List LdapGroupEntry)
    (ldap_groups : List String) : Option (List String) :=
  let result_groups :=
    ldap_groups.foldl (fun acc group => acc ++ get_groups_with_wildcard search group) []
  if result_groups.isEmpty then none else some result_groups

/-- One directory entry for a user in the Active-Directory flavor: its DN
and its `sAMAccountName` attribute (source lines 180-182). -/
structure ADEntry where
  dn : String
  sAMAccountName : String
deriving DecidableEq, Repr

/-- Source lines 180-189 of `LDAPConn.get_group_members` (Active-Directory
flavor): fill the username-to-DN dict from the collected user entries,
lower-casing each username when the lowercase option is enabled. -/
def fill_final_listing (lowercase : Bool) (group_members : List ADEntry) :
    List (String × String) :=
  group_members.foldl
    (fun final_listing item =>
      dictInsert final_listing
        (if lowercase then lower item.sAMAccountName else item.sAMAccountName)
        item.dn)
    []

/-- Source lines 162-177 of `LDAPConn.get_group_members` (Active-Directory
flavor, non-recursive): for each DN in the group's member attribute, search
that DN for a matching user; when the search succeeds the variable
`group_members` is assigned the entries of that response — the assignment
replaces the previous value rather than extending it, exactly as the
source is written. -/
def ad_direct_group_members (search_member : String → Option (List ADEntry))
    (member_refs : List String) : List ADEntry :=
  member_refs.foldl
    (fun group_members member =>
      match search_member member with
      | some entries => entries
      | none => group_members)
    []

/-- The non-recursive Active-Directory resolution: the member collection of
source lines 162-177 followed by the dict fill of lines 180-189. -/
def get_group_members_ad_direct (lowercase : Bool)
    (search_member : String → Option (List ADEntry)) (member_refs : List String) :
    List (String × String) :=
  fill_final_listing lowercase (ad_direct_group_members search_member member_refs)

/-- The nested-group structure of the directory, as consulted by the
transitive-membership query: the set of group names, each group's nested
subgroup references, and each group's direct user entries. -/
structure ADDirectory where
  groups : List String
  sub : String → List String
  users : String → List ADEntry

/-- Modelled from the spec: the directory server's evaluation of the
transitive member-of filter (`self.memberof_filter % result_dn`, source
lines 142-156).  The source issues one query and the server walks the
nested-group graph; the repository contains no implementation of that
walk, so it is embedded as the spec describes it (section 4.1 "Cycle
handling"): a traversal over the group graph that tracks visited group
identifiers and never re-descends into an already-visited group. -/
def crawl (sub : String → List String) (univ : List String)
    (visited pending : List String) : List String :=
  match pending with
  | [] => visited
  | g :: rest =>
    if g ∈ visited then crawl sub univ visited rest
    else if g ∈ univ then crawl sub univ (g :: visited) (sub g ++ rest)
    else crawl sub univ visited rest
termination_by ((univ.filter (fun x => !(visited.contains x))).length, pending.length)
decreasing_by
  · exact Prod.Lex.right _ (Nat.lt_succ_self _)
  · refine Prod.Lex.left _ _ ?_
    rename_i hv hg
    rw [← List.countP_eq_length_filter, ← List.countP_eq_length_filter]
    clear rest
    induction univ with
    | nil => cases hg
    | cons a tl ih =>
      rw [List.countP_cons, List.countP_cons]
      have hle : tl.countP (fun x => !((g :: visited).contains x))
          ≤ tl.countP (fun x => !(visited.contains x)) := by
        apply List.countP_mono_left
        intro b _ hb
        simp only [List.contains_cons, Bool.not_eq_true', Bool.or_eq_false_iff] at hb ⊢
        exact hb.2
      by_cases hag : a = g
      · subst hag
        have hc1 : ((a :: visited).contains a) = true := by simp
        have hc2 : (visited.contains a) = false := by simpa using hv
        rw [hc1, hc2]
        simpa using Nat.lt_succ_of_le hle
      · have hgtl : g ∈ tl := by
          rcases List.mem_cons.mp hg with h | h
          · exact absurd h.symm hag
          · exact h
        have hc : ((g :: visited).contains a) = visited.contains a := by
          simp only [List.contains_cons]
          rw [beq_eq_false_iff_ne.mpr hag, Bool.false_or]
        rw [hc]
        have := ih hgtl
        omega
  · exact Prod.Lex.right _ (Nat.lt_succ_self _)

/-- Reachability in the nested-group graph: the groups whose members the
transitive query reports are exactly those reachable from the queried
group along subgroup references. -/
inductive Reach (sub : String → List String) : String → String → Prop
  | refl (g : String) : Reach sub g g
  | tail (g h x : String) : h ∈ sub g → Reach sub h x → Reach sub g x

/-- Groups visited by the transitive-membership evaluation rooted at
`root`. -/
def transitive_groups (d : ADDirectory) (root : String) : List String :=
  crawl d.sub d.groups [] [root]

/-- User entries returned by the recursive (nested-group) resolution of
source lines 142-160: the members of every group the transitive query
reaches. -/
def transitive_users (d : ADDirectory) (root : String) : List ADEntry :=
  ((transitive_groups d root).map d.users).flatten

/-- The recursive Active-Directory resolution of source lines 142-160
followed by the dict fill of lines 180-189. -/
def get_group_members_ad_recursive (lowercase : Bool) (d : ADDirectory) (root : String) :
    List (String × String) :=
  fill_final_listing lowercase (transitive_users d root)

/-- Source lines 106-217 of `LDAPConn.get_group_members` in the
generic-LDAP flavor, under the semantics of the imported ldap3 library
(line 7): the synchronous `Connection.search` returns a boolean — the same
value is truth-tested at line 124, and the Active-Directory branch fetches
entries through `response_to_json` accordingly.  A falsy group search
prints the skip message and returns Python `None` (`some none`, lines
124-126).  A truthy one reaches line 193, `dn, users = result.pop()`,
which calls `.pop()` on that boolean: an uncaught `AttributeError`
(`none`) raised before any member of the group is read, so the rest of
the branch (lines 195-217), including the `final_listing` fill, is
unreachable and this flavor never places a username into the
desired-state mapping.  The `lowercase` and `openldap_type` parameters
mirror the `LDAPConn` object state; the crash precedes every use of
them. -/
def get_group_members_openldap (lowercase : Bool) (openldap_type : String)
    (search_ok : Bool) : Option (Option (List (String × String))) :=
  if search_ok then none
  else some none

/-- Outcome of the membership-mutation phase under the failure model: the
mutations attempted, every line the code prints or records about them, and
the final server state. -/
structure MutationOutcome where
  ops : List Op
  log : List String
  state : TCState
deriving DecidableEq, Repr

/-- Source lines 375-387 under a failure model: `fails` tells which HTTP
calls the server rejects (status other than 200).  On failure the method
builds and returns an error string; on success it returns Python `None`.
The server state changes only on success. -/
def add_user_to_group_r (fails : Op → Bool) (c : TCClient) (s : TCState)
    (user group_name : String) : Option (TCState × Option String) :=
  match c.tc_groups.filter (fun g => g.name == group_name) with
  | [] => none
  | _ :: _ =>
    if fails (Op.addMembership group_name user) then
      some (s, some ("Error: Could not add user " ++ user ++ " to group " ++ group_name))
    else
      some ({ s with membership := s.membership ++ [(group_name, user)] }, none)

/-- Source lines 389-398 under the failure model; the failure branch of the
source reuses the "add user" error text verbatim. -/
def remove_user_from_group_r (fails : Op → Bool) (s : TCState)
    (user group_name : String) : TCState × Option String :=
  if fails (Op.removeMembership group_name user) then
    (s, some ("Error: Could not add user " ++ user ++ " to group " ++ group_name))
  else
    ({ s with membership := s.membership.filter (fun p => !(p.1 == group_name && p.2 == user)) },
     none)

/-- The addition loop of source lines 441-444 under the failure model: the
loop calls `add_user_to_group` and discards its return value, so the error
string of a failed call reaches no log. -/
def addLoop (fails : Op → Bool) (c : TCClient) (group : String) :
    List String → List Op → TCState → Option (List Op × TCState)
  | [], ops, s => some (ops, s)
  | u :: rest, ops, s =>
    match add_user_to_group_r fails c s u group with
    | none => none
    | some (st, _errmsg) => addLoop fails c group rest (ops ++ [Op.addMembership group u]) st

/-- The removal loop of source lines 446-449 under the failure model; the
return value of `remove_user_from_group` is likewise discarded. -/
def removeLoop (fails : Op → Bool) (group : String) :
    List String → List Op → TCState → List Op × TCState
  | [], ops, s => (ops, s)
  | u :: rest, ops, s =>
    match remove_user_from_group_r fails s u group with
    | (st, _errmsg) => removeLoop fails group rest (ops ++ [Op.removeMembership group u]) st

/-- The membership-mutation phase of one group pass (source lines 438-449)
under the failure model: compute the diff against the observed members and
run the two loops.  The `log` field collects everything this code path
prints or records about the mutations — the source contains no print
statement here and ignores both loops' return values, so the log is
built empty. -/
def applyMutations (fails : Op → Bool) (c : TCClient) (group : String)
    (dkeys observed : List String) (s : TCState) : Option MutationOutcome :=
  match addLoop fails c group (toAdd dkeys observed) [] s with
  | none => none
  | some (ops1, s1) =>
    let r := removeLoop fails group (toRemove dkeys observed) ops1 s1
    some { ops := r.1, log := [], state := r.2 }

/-- A directory for the wildcard examples: pattern `B.*` matches one group,
every other pattern matches nothing. -/
def search3 : String → List LdapGroupEntry := fun pat =>
  if pat = "B.*" then [⟨"cn=B.X,ou=groups", "B.X"⟩] else []

/-- A resolver for which group `G1` has no directory entry
(`get_group_members` returned `None`) while any other group resolves to an
empty member dict. -/
def resolve4 : String → Option (List (String × String)) := fun group =>
  if group = "G1" then none else some []

/-- A TeamCity client whose caches are empty. -/
def emptyClient : TCClient := ⟨[], []⟩

/-- A TeamCity server with no groups, users or memberships. -/
def emptyState : TCState := ⟨[], [], []⟩

/-- A cyclic nested-group directory: group `A` contains group `B` and `B`
contains `A`; each has one direct user member. -/
def dir6 : ADDirectory :=
  ⟨["A", "B"],
   fun g => if g = "A" then ["B"] else if g = "B" then ["A"] else [],
   fun g =>
     if g = "A" then [⟨"cn=u1,ou=users", "u1"⟩]
     else if g = "B" then [⟨"cn=u2,ou=users", "u2"⟩]
     else []⟩

/-- A per-member user search for the direct-resolution example: both member
DNs resolve, each to one user entry. -/
def search7 : String → Option (List ADEntry) := fun member =>
  if member = "dn1" then some [⟨"dn1", "alice"⟩]
  else if member = "dn2" then some [⟨"dn2", "bob"⟩]
  else none

/-- A failure oracle rejecting exactly the addition of `alice` to
`G.Zabbix.T`. -/
def fails9 : Op → Bool := fun op => op == Op.addMembership "G.Zabbix.T" "alice"

/-- A client whose cache holds the one group `G.Zabbix.T`. -/
def client9 : TCClient := ⟨[⟨"G.Zabbix.T", "G.Zabbix.T"⟩], ["bob"]⟩

/-- A server holding the group `G.Zabbix.T` with no members. -/
def state9 : TCState := ⟨[⟨"G.Zabbix.T", "G.Zabbix.T"⟩], ["bob"], []⟩

/-- A client whose cache holds one group containing `.Zabbix.` in its
name. -/
def client10 : TCClient := ⟨[⟨"X.Zabbix.Y", "X.Zabbix.Y"⟩], []⟩

/-- A server holding that same group. -/
def state10 : TCState := ⟨[⟨"X.Zabbix.Y", "X.Zabbix.Y"⟩], [], []⟩

/-- Desired members for the ordering example: the one user `alice`. -/
def users2 : List (String × String) := [("alice", "cn=alice,ou=users")]

/-- A client for the ordering example: the target already has the group and
both users. -/
def client2 : TCClient := ⟨[⟨"G.Zabbix.T", "G.Zabbix.T"⟩], ["alice", "bob"]⟩

/-- A server for the ordering example: `bob` is the group's only member, so
the pass must add `alice` and remove `bob`. -/
def state2 : TCState :=
  ⟨[⟨"G.Zabbix.T", "G.Zabbix.T"⟩], ["alice", "bob"], [("G.Zabbix.T", "bob")]⟩

theorem foldl_append_lists {α β : Type} (f : α → List β) :
    ∀ (l : List α) (acc : List β),
      l.foldl (fun a x => a ++ f x) acc = acc ++ (l.map f).flatten := by
  intro l
  induction l with
  | nil => intro acc; simp
  | cons x tl ih =>
    intro acc
    rw [List.foldl_cons, ih, List.map_cons, List.flatten_cons, List.append_assoc]

theorem flatten_eq_nil_iff_parts {β : Type} (ls : List (List β)) :
    ls.flatten = [] ↔ ∀ l ∈ ls, l = [] := by
  induction ls with
  | nil => simp
  | cons l tl ih => simp [List.flatten_cons, List.append_eq_nil, ih]

/-- C1: for all desired and observed username sets, the reconciliation of
`start_sync` computes exactly `toAdd = desired − observed` and
`toRemove = observed − desired`; the two are disjoint, and the per-group
mutation plan never holds both an addition and a removal of the same
(group, user) pair. -/
theorem C1_diff_exact_and_disjoint (desired observed : List String) (group u : String) :
    (u ∈ toAdd desired observed ↔ u ∈ desired ∧ u ∉ observed) ∧
    (u ∈ toRemove desired observed ↔ u ∈ observed ∧ u ∉ desired) ∧
    ¬(u ∈ toAdd desired observed ∧ u ∈ toRemove desired observed) ∧
    ¬(Op.addMembership group u ∈ groupPlan group desired observed ∧
      Op.removeMembership group u ∈ groupPlan group desired observed) := by
  have hadd : u ∈ toAdd desired observed ↔ u ∈ desired ∧ u ∉ observed := by
    simp [toAdd]
  have hrem : u ∈ toRemove desired observed ↔ u ∈ observed ∧ u ∉ desired := by
    simp [toRemove]
  refine ⟨hadd, hrem, ?_, ?_⟩
  · rintro ⟨h1, h2⟩
    exact (hrem.mp h2).2 (hadd.mp h1).1
  · rintro ⟨h1, h2⟩
    have h1' : u ∈ toAdd desired observed := by
      rcases List.mem_append.mp h1 with h | h
      · rcases List.mem_map.mp h with ⟨a, ha, he⟩
        cases he
        exact ha
      · rcases List.mem_map.mp h with ⟨a, _, he⟩
        cases he
    have h2' : u ∈ toRemove desired observed := by
      rcases List.mem_append.mp h2 with h | h
      · rcases List.mem_map.mp h with ⟨a, _, he⟩
        cases he
      · rcases List.mem_map.mp h with ⟨a, ha, he⟩
        cases he
        exact ha
    exact (hrem.mp h2').2 (hadd.mp h1').1

/-- C3 as stated fails on the code: a wildcard pattern with zero matches
does not abort the run when another pattern has matches — `A.*` matches
nothing, yet `set_groups_with_wildcard` succeeds with the matches of
`B.*`; the zero-match pattern is only logged and skipped
(source lines 236-237). -/
theorem C3_counterexample_no_abort :
    set_groups_with_wildcard search3 ["A.*", "B.*"] = some ["B.X"] ∧
    get_groups_with_wildcard search3 "A.*" = [] := by
  constructor <;> rfl

/-- C3 amended: the run aborts (`SystemExit`, source line 331) if and only
if every configured wildcard pattern yields zero matches, their
concatenation being empty; an individual zero-match pattern is skipped. -/
theorem C3_amended_abort_iff_all_empty (search : String → List LdapGroupEntry)
    (ldap_groups : List String) :
    set_groups_with_wildcard search ldap_groups = none ↔
      ∀ g ∈ ldap_groups, get_groups_with_wildcard search g = [] := by
  unfold set_groups_with_wildcard
  rw [foldl_append_lists (get_groups_with_wildcard search) ldap_groups []]
  simp only [List.nil_append]
  constructor
  · intro h g hg
    split at h
    · rename_i hc
      have hnil : (ldap_groups.map (get_groups_with_wildcard search)).flatten = [] :=
        List.isEmpty_iff.mp hc
      exact (flatten_eq_nil_iff_parts _).mp hnil _ (List.mem_map_of_mem _ hg)
    · cases h
  · intro hall
    have hnil : (ldap_groups.map (get_groups_with_wildcard search)).flatten = [] := by
      refine (flatten_eq_nil_iff_parts _).mpr ?_
      intro l hl
      rcases List.mem_map.mp hl with ⟨g, hg, he⟩
      rw [← he]
      exact hall g hg
    simp [hnil]

theorem mem_dictInsert_key (d : List (String × String)) (k v k0 v0 : String)
    (h : (k, v) ∈ dictInsert d k0 v0) : k = k0 ∨ (k, v) ∈ d := by
  unfold dictInsert at h
  split at h
  · rcases List.mem_map.mp h with ⟨p, hp, he⟩
    split at he
    · injection he with h1 h2
      exact Or.inl h1.symm
    · right
      rw [← he]
      exact hp
  · rcases List.mem_append.mp h with h | h
    · exact Or.inr h
    · exact Or.inl (congrArg Prod.fst (List.mem_singleton.mp h))

theorem foldl_dictInsert_key (f : ADEntry → String) :
    ∀ (entries : List ADEntry) (acc : List (String × String)) (k v : String),
      (k, v) ∈ entries.foldl (fun fl item => dictInsert fl (f item) item.dn) acc →
      (∃ v', (k, v') ∈ acc) ∨ ∃ e ∈ entries, k = f e := by
  intro entries
  induction entries with
  | nil =>
    intro acc k v h
    exact Or.inl ⟨v, h⟩
  | cons e tl ih =>
    intro acc k v h
    rw [List.foldl_cons] at h
    rcases ih (dictInsert acc (f e) e.dn) k v h with ⟨v', hv'⟩ | ⟨e', he', hk⟩
    · rcases mem_dictInsert_key acc k v' (f e) e.dn hv' with hk | hmem
      · exact Or.inr ⟨e, List.mem_cons_self e tl, hk⟩
      · exact Or.inl ⟨v', hmem⟩
    · exact Or.inr ⟨e', List.mem_cons_of_mem e he', hk⟩

/-- C5: with the lowercase option enabled, every username placed into the
desired-state mapping is lower-cased, in both directory flavors.  For the
Active-Directory flavor every stored key is the lower-cased directory
username.  For the generic-LDAP flavor the property holds because that
flavor never places any username at all, and the theorem proves why:
every invocation either returns `None` for a missing group or raises at
line 193 (`result.pop()` on the boolean search result) before any member
is resolved, so no listing is ever produced. -/
theorem C5_lowercase_every_placed_username :
    (∀ (entries : List ADEntry) (k v : String),
        (k, v) ∈ fill_final_listing true entries →
        ∃ e ∈ entries, k = lower e.sAMAccountName) ∧
    (∀ (lowercase : Bool) (openldap_type : String) (search_ok : Bool)
        (listing : List (String × String)),
        get_group_members_openldap lowercase openldap_type search_ok
          ≠ some (some listing)) := by
  constructor
  · intro entries k v h
    have h' : (k, v) ∈ entries.foldl
        (fun fl item => dictInsert fl (lower item.sAMAccountName) item.dn) [] := by
      simpa [fill_final_listing] using h
    rcases foldl_dictInsert_key (fun item => lower item.sAMAccountName) entries [] k v h' with
      ⟨v', hv'⟩ | hfound
    · cases hv'
    · exact hfound
  · intro lowercase openldap_type search_ok listing
    unfold get_group_members_openldap
    cases search_ok
    · simp
    · simp

/-- C5 witness: the Active-Directory flavor stores `Alice` as `alice` when
the lowercase option is enabled, the theorem applies to that stored
entry, and a concrete generic-LDAP invocation (found group, lowercase on)
yields no listing. -/
theorem C5_lowercase_every_placed_username_witness :
    (("alice", "cn=alice,ou=users") ∈ fill_final_listing true [⟨"cn=alice,ou=users", "Alice"⟩]) ∧
    (∃ e ∈ [(⟨"cn=alice,ou=users", "Alice"⟩ : ADEntry)], "alice" = lower e.sAMAccountName) ∧
    (∀ listing : List (String × String),
        get_group_members_openldap true "groupofnames" true ≠ some (some listing)) :=
  ⟨by decide,
   C5_lowercase_every_placed_username.1 [⟨"cn=alice,ou=users", "Alice"⟩] "alice"
     "cn=alice,ou=users" (by decide),
   fun listing => C5_lowercase_every_placed_username.2 true "groupofnames" true listing⟩

/-- C7: the claim is right and the code is wrong.  In the direct
(non-recursive) Active-Directory branch the loop over member references
reassigns `group_members` with each successful search instead of
accumulating (source lines 175-177), so a group with member DNs `dn1`
(user `alice`) and `dn2` (user `bob`), both of which resolve, yields a
mapping containing only `bob` — not one entry per successful member
lookup. -/
theorem C7_direct_members_overwritten :
    get_group_members_ad_direct false search7 ["dn1", "dn2"] = [("bob", "dn2")] ∧
    ("alice", "dn1") ∉ get_group_members_ad_direct false search7 ["dn1", "dn2"] := by
  constructor
  · rfl
  · decide

theorem add_user_to_group_r_some (fails : Op → Bool) (c : TCClient) (s : TCState)
    (user group_name : String)
    (h : c.tc_groups.filter (fun g => g.name == group_name) ≠ []) :
    ∃ st msg, add_user_to_group_r fails c s user group_name = some (st, msg) := by
  unfold add_user_to_group_r
  cases hf : c.tc_groups.filter (fun g => g.name == group_name) with
  | nil => exact absurd hf h
  | cons a l =>
    dsimp only
    split
    · exact ⟨_, _, rfl⟩
    · exact ⟨_, _, rfl⟩

theorem addLoop_ops (fails : Op → Bool) (c : TCClient) (group : String)
    (h : c.tc_groups.filter (fun g => g.name == group) ≠ []) :
    ∀ (us : List String) (ops : List Op) (s : TCState),
      ∃ s', addLoop fails c group us ops s
        = some (ops ++ us.map (Op.addMembership group), s') := by
  intro us
  induction us with
  | nil =>
    intro ops s
    exact ⟨s, by simp [addLoop]⟩
  | cons u rest ih =>
    intro ops s
    rcases add_user_to_group_r_some fails c s u group h with ⟨st, msg, heq⟩
    rcases ih (ops ++ [Op.addMembership group u]) st with ⟨s', hs'⟩
    refine ⟨s', ?_⟩
    simp only [addLoop, heq]
    rw [hs']
    simp [List.append_assoc]

theorem removeLoop_ops (fails : Op → Bool) (group : String) :
    ∀ (us : List String) (ops : List Op) (s : TCState),
      (removeLoop fails group us ops s).1
        = ops ++ us.map (Op.removeMembership group) := by
  intro us
  induction us with
  | nil =>
    intro ops s
    simp [removeLoop]
  | cons u rest ih =>
    intro ops s
    rcases hre : remove_user_from_group_r fails s u group with ⟨st, msg⟩
    rw [removeLoop, hre, ih]
    simp

/-- C9 as stated fails on the code: target-mutation failures are not
reported or recorded.  With an oracle rejecting the addition of `alice`,
the mutation phase attempts the addition, the callee returns an error
string and leaves the server unchanged — and the sync loop discards that
return value (source lines 443-444 call `add_user_to_group` as a bare
statement), so the outcome carries an empty log while the failed mutation
went unreported. -/
theorem C9_counterexample_failure_swallowed :
    applyMutations fails9 client9 "G.Zabbix.T" ["alice"] [] state9
      = some ⟨[Op.addMembership "G.Zabbix.T" "alice"], [], state9⟩ ∧
    add_user_to_group_r fails9 client9 state9 "alice" "G.Zabbix.T"
      = some (state9, some "Error: Could not add user alice to group G.Zabbix.T") := by
  constructor <;> rfl

/-- C9 amended: a failed mutation is skipped (the server state is
unchanged by it) and the loop continues through the remaining mutations
with no retry — the attempted sequence is the full plan, independent of
which calls fail — but no failure is reported or recorded: the creation
responses are unchecked and the error values returned by failed add/remove
calls are discarded, so the log is empty. -/
theorem C9_amended_skip_continue_unreported (fails : Op → Bool) (c : TCClient)
    (group : String) (dkeys observed : List String) (s : TCState)
    (h : c.tc_groups.filter (fun g => g.name == group) ≠ []
          ∨ toAdd dkeys observed = []) :
    ∃ out, applyMutations fails c group dkeys observed s = some out ∧
      out.ops = groupPlan group dkeys observed ∧ out.log = [] := by
  rcases h with h | h
  · rcases addLoop_ops fails c group h (toAdd dkeys observed) [] s with ⟨s1, h1⟩
    unfold applyMutations
    rw [h1]
    refine ⟨_, rfl, ?_, rfl⟩
    simp [removeLoop_ops, groupPlan]
  · unfold applyMutations
    rw [h]
    simp only [addLoop]
    refine ⟨_, rfl, ?_, rfl⟩
    simp [removeLoop_ops, groupPlan, h]

/-- C9 witness: the amended theorem applied to the failing-addition
example — every hypothesis holds there, the attempted mutations are the
whole plan and the log is empty. -/
theorem C9_amended_witness :
    ∃ out, applyMutations fails9 client9 "G.Zabbix.T" ["alice"] ["carol"] state9 = some out ∧
      out.ops = groupPlan "G.Zabbix.T" ["alice"] ["carol"] ∧ out.log = [] :=
  C9_amended_skip_continue_unreported fails9 client9 "G.Zabbix.T" ["alice"] ["carol"] state9
    (Or.inl (by decide))

/-- C4: the claim is right and the code is wrong.  `get_group_members`
prints "skipping group" and returns `None` for a group without a
directory entry (source lines 124-126), but `start_sync` then calls
`.items()` on that `None` (source line 427), an uncaught
`AttributeError` that terminates the whole run: with configured groups
`G1` (not found) and `G2`, the run dies on `G1` and never reaches `G2`,
although a run over `G2` alone succeeds. -/
theorem C4_missing_group_crashes_run :
    start_sync resolve4 ["G1", "G2"] emptyClient emptyState [] = none ∧
    start_sync resolve4 ["G2"] emptyClient emptyState []
      = some ([Op.createGroup "G2"], emptyClient, ⟨[⟨"G2", "G2"⟩], [], []⟩) := by
  constructor <;> rfl

theorem syncGroup_some_shape (dusers : List (String × String)) (group : String)
    (c : TCClient) (s : TCState) (ops : List Op) (c' : TCClient) (s' : TCState)
    (h : syncGroup (some dusers) group c s = some (ops, c', s')) :
    ∃ gcOps s2 observed,
      (c' = c ∧ gcOps = ([] : List Op) ∨
        c' = { c with tc_groups := get_tc_groups (create_group group s) }
          ∧ gcOps = [Op.createGroup group]) ∧
      get_users_from_group c' s2 group = some observed ∧
      ops = gcOps
        ++ ((dusers.map Prod.fst).filter (fun login => !(c.tc_users.contains login))).map
            Op.createUser
        ++ groupPlan group (dusers.map Prod.fst) observed := by
  unfold syncGroup at h
  by_cases hmem : ((c.tc_groups.map TCGroup.name).contains group) = true
  · rw [if_pos hmem] at h
    dsimp only at h
    split at h
    · exact Option.noConfusion h
    · split at h
      · exact Option.noConfusion h
      · rename_i x1 observed hobs x2 s3 hadd
        injection h with h'
        injection h' with hops h''
        injection h'' with hc hs
        subst hc
        exact ⟨[], _, observed, Or.inl ⟨rfl, rfl⟩, hobs, by rw [← hops]⟩
  · rw [if_neg hmem] at h
    dsimp only at h
    split at h
    · exact Option.noConfusion h
    · split at h
      · exact Option.noConfusion h
      · rename_i x1 observed hobs x2 s3 hadd
        injection h with h'
        injection h' with hops h''
        injection h'' with hc hs
        subst hc
        exact ⟨[Op.createGroup group], _, observed, Or.inr ⟨rfl, rfl⟩, hobs,
          by rw [← hops]⟩

/-- C2: within one group's sync pass the trace of issued mutations is
ordered as: group creation (when the group was absent) first, then user
creations, then membership additions, then membership removals — so no
membership mutation precedes the creation of the group or of a user
created in this pass — and a user created in this pass is never removed
in the same pass. -/
theorem C2_sync_pass_ordered (dusers : List (String × String)) (group : String)
    (c : TCClient) (s : TCState) (ops : List Op) (c' : TCClient) (s' : TCState)
    (h : syncGroup (some dusers) group c s = some (ops, c', s')) :
    ∃ gc uc ad rm, ops = gc ++ uc ++ ad ++ rm ∧
      (∀ o ∈ gc, o = Op.createGroup group) ∧
      (∀ o ∈ uc, ∃ u, o = Op.createUser u) ∧
      (∀ o ∈ ad, ∃ u, o = Op.addMembership group u) ∧
      (∀ o ∈ rm, ∃ u, o = Op.removeMembership group u) ∧
      (∀ u, Op.createUser u ∈ uc → Op.removeMembership group u ∉ rm) := by
  rcases syncGroup_some_shape dusers group c s ops c' s' h with
    ⟨gcOps, s2, observed, hgc, hobs, hops⟩
  refine ⟨gcOps,
    ((dusers.map Prod.fst).filter (fun login => !(c.tc_users.contains login))).map
      Op.createUser,
    (toAdd (dusers.map Prod.fst) observed).map (Op.addMembership group),
    (toRemove (dusers.map Prod.fst) observed).map (Op.removeMembership group),
    ?_, ?_, ?_, ?_, ?_, ?_⟩
  · rw [hops]
    simp [groupPlan, List.append_assoc]
  · intro o ho
    rcases hgc with ⟨_, hgc⟩ | ⟨_, hgc⟩ <;> subst hgc
    · cases ho
    · rw [List.mem_singleton] at ho
      exact ho
  · intro o ho
    rcases List.mem_map.mp ho with ⟨u, _, he⟩
    exact ⟨u, he.symm⟩
  · intro o ho
    rcases List.mem_map.mp ho with ⟨u, _, he⟩
    exact ⟨u, he.symm⟩
  · intro o ho
    rcases List.mem_map.mp ho with ⟨u, _, he⟩
    exact ⟨u, he.symm⟩
  · intro u hu hr
    rcases List.mem_map.mp hu with ⟨u1, hu1, he1⟩
    injection he1 with he1'
    rcases List.mem_map.mp hr with ⟨u2, hu2, he2⟩
    injection he2 with hg2 he2'
    have hin : u ∈ dusers.map Prod.fst := by
      rw [← he1']
      exact (List.mem_filter.mp hu1).1
    have hnotin : ¬ u ∈ dusers.map Prod.fst := by
      rw [← he2']
      have h2 := (List.mem_filter.mp hu2).2
      simpa using h2
    exact hnotin hin

/-- C2 witness: the ordering theorem applied to a concrete pass — group
`G.Zabbix.T` exists, `alice` is desired but not a member, `bob` is a
member but not desired, so the trace is one addition followed by one
removal; the hypothesis is discharged by evaluating `syncGroup`. -/
theorem C2_sync_pass_ordered_witness :
    syncGroup (some users2) "G.Zabbix.T" client2 state2
      = some ([Op.addMembership "G.Zabbix.T" "alice",
               Op.removeMembership "G.Zabbix.T" "bob"],
              client2,
              ⟨[⟨"G.Zabbix.T", "G.Zabbix.T"⟩], ["alice", "bob"],
               [("G.Zabbix.T", "alice")]⟩) ∧
    (∃ gc uc ad rm,
      [Op.addMembership "G.Zabbix.T" "alice", Op.removeMembership "G.Zabbix.T" "bob"]
        = gc ++ uc ++ ad ++ rm ∧
      (∀ o ∈ gc, o = Op.createGroup "G.Zabbix.T") ∧
      (∀ o ∈ uc, ∃ u, o = Op.createUser u) ∧
      (∀ o ∈ ad, ∃ u, o = Op.addMembership "G.Zabbix.T" u) ∧
      (∀ o ∈ rm, ∃ u, o = Op.removeMembership "G.Zabbix.T" u) ∧
      (∀ u, Op.createUser u ∈ uc → Op.removeMembership "G.Zabbix.T" u ∉ rm)) :=
  ⟨by decide,
   C2_sync_pass_ordered users2 "G.Zabbix.T" client2 state2
     [Op.addMembership "G.Zabbix.T" "alice", Op.removeMembership "G.Zabbix.T" "bob"]
     client2
     ⟨[⟨"G.Zabbix.T", "G.Zabbix.T"⟩], ["alice", "bob"], [("G.Zabbix.T", "alice")]⟩
     (by decide)⟩

/-- C10 as stated fails on the code: for a configured group whose name
lacks `.Zabbix.` the observed membership is not reported as empty when
the client has cached at least one `.Zabbix.` group — the key lookup
`[...][0]` in `get_users_from_group` finds no match and raises
`IndexError` (source line 365), crashing the run. -/
theorem C10_counterexample_crash_not_empty :
    get_users_from_group client10 state10 "Foo" ≠ some [] ∧
    get_users_from_group client10 state10 "Foo" = none ∧
    containsSub ".Zabbix." "Foo" = false := by
  refine ⟨?_, ?_, ?_⟩ <;> decide

/-- C10 amended: the client's view of target groups (`get_tc_groups`, used
to initialise and refresh `self.tc_groups`) only ever contains groups
whose name includes `.Zabbix.`.  For a configured group without that
substring, the observed membership is reported as empty only when the
cached group list is empty; when the cache is non-empty the key lookup
raises `IndexError` instead (the run crashes).  In a pass that completes,
no removal is ever issued for such a group. -/
theorem C10_amended_zabbix_filter :
    (∀ (s : TCState) (g : TCGroup), g ∈ get_tc_groups s →
        containsSub ".Zabbix." g.name = true) ∧
    (∀ (c : TCClient) (s : TCState) (gname : String),
        containsSub ".Zabbix." gname = false →
        (∀ g ∈ c.tc_groups, containsSub ".Zabbix." g.name = true) →
        get_users_from_group c s gname = if c.tc_groups.isEmpty then some [] else none) ∧
    (∀ (dusers : List (String × String)) (gname : String) (c : TCClient) (s : TCState)
        (ops : List Op) (c' : TCClient) (s' : TCState),
        containsSub ".Zabbix." gname = false →
        (∀ g ∈ c.tc_groups, containsSub ".Zabbix." g.name = true) →
        syncGroup (some dusers) gname c s = some (ops, c', s') →
        ∀ u, Op.removeMembership gname u ∉ ops) := by
  have hfilter : ∀ (c : TCClient) (gname : String),
      containsSub ".Zabbix." gname = false →
      (∀ g ∈ c.tc_groups, containsSub ".Zabbix." g.name = true) →
      c.tc_groups.filter (fun g => g.name == gname) = [] := by
    intro c gname hg hz
    rw [List.filter_eq_nil_iff]
    intro g hgmem
    intro hbeq
    have : g.name = gname := by simpa using hbeq
    rw [← this] at hg
    rw [hz g hgmem] at hg
    cases hg
  have part2 : ∀ (c : TCClient) (s : TCState) (gname : String),
      containsSub ".Zabbix." gname = false →
      (∀ g ∈ c.tc_groups, containsSub ".Zabbix." g.name = true) →
      get_users_from_group c s gname = if c.tc_groups.isEmpty then some [] else none := by
    intro c s gname hg hz
    unfold get_users_from_group
    cases hE : c.tc_groups.isEmpty
    · rw [if_neg (by simp [hE]), if_neg (by simp [hE])]
      rw [hfilter c gname hg hz]
    · rw [if_pos (by simp [hE]), if_pos (by simp [hE])]
  refine ⟨?_, part2, ?_⟩
  · intro s g hmem
    exact (List.mem_filter.mp hmem).2
  · intro dusers gname c s ops c' s' hg hz h u
    rcases syncGroup_some_shape dusers gname c s ops c' s' h with
      ⟨gcOps, s2, observed, hgc, hobs, hops⟩
    have hz' : ∀ g ∈ c'.tc_groups, containsSub ".Zabbix." g.name = true := by
      rcases hgc with ⟨hc, _⟩ | ⟨hc, _⟩
      · rw [hc]; exact hz
      · rw [hc]
        intro g hgm
        exact (List.mem_filter.mp hgm).2
    have hobs' := part2 c' s2 gname hg hz'
    rw [hobs] at hobs'
    have hempty : observed = [] := by
      by_cases hE : c'.tc_groups.isEmpty
      · rw [if_pos hE] at hobs'
        simpa using hobs'
      · rw [if_neg hE] at hobs'
        cases hobs'
    intro hmem
    rw [hops] at hmem
    rcases List.mem_append.mp hmem with hmem | hmem
    · rcases List.mem_append.mp hmem with hmem | hmem
      · rcases hgc with ⟨_, hgce⟩ | ⟨_, hgce⟩ <;> subst hgce
        · cases hmem
        · rw [List.mem_singleton] at hmem
          cases hmem
      · rcases List.mem_map.mp hmem with ⟨u1, _, he⟩
        cases he
    · rw [hempty] at hmem
      unfold groupPlan at hmem
      rcases List.mem_append.mp hmem with hmem | hmem
      · rcases List.mem_map.mp hmem with ⟨u1, _, he⟩
        cases he
      · rcases List.mem_map.mp hmem with ⟨u1, hu1, he⟩
        simp [toRemove] at hu1

/-- C10 witness: the amended theorem applied concretely — the lookup for
the non-Zabbix group `Foo` against a client caching one Zabbix group
follows the empty/crash rule, and a completed pass for `Foo` (starting
from an empty target) issues no removal. -/
theorem C10_amended_zabbix_filter_witness :
    (get_users_from_group client10 state10 "Foo"
      = if client10.tc_groups.isEmpty then some [] else none) ∧
    (∀ u, Op.removeMembership "Foo" u ∉ [Op.createGroup "Foo"]) :=
  ⟨C10_amended_zabbix_filter.2.1 client10 state10 "Foo" (by decide) (by decide),
   C10_amended_zabbix_filter.2.2 [] "Foo" emptyClient emptyState
     [Op.createGroup "Foo"] emptyClient ⟨[⟨"Foo", "Foo"⟩], [], []⟩
     (by decide) (by decide) (by decide)⟩

theorem mem_membersOf (u gname : String) (s : TCState) :
    u ∈ membersOf gname s ↔ (gname, u) ∈ s.membership := by
  unfold membersOf
  constructor
  · intro h
    rcases List.mem_map.mp h with ⟨p, hp, he⟩
    rcases List.mem_filter.mp hp with ⟨hmem, heq⟩
    have h1 : p.1 = gname := by simpa using heq
    have h2 : p.2 = u := he
    have : p = (gname, u) := by
      cases p
      simp only [Prod.mk.injEq]
      exact ⟨h1, h2⟩
    rw [← this]
    exact hmem
  · intro h
    exact List.mem_map.mpr ⟨(gname, u), List.mem_filter.mpr ⟨h, by simp⟩, rfl⟩

theorem applyOps_append_split (l1 l2 : List Op) (s : TCState) :
    applyOps (l1 ++ l2) s = applyOps l2 (applyOps l1 s) := by
  unfold applyOps
  rw [List.foldl_append]

theorem applyOps_adds_mem (group : String) (adds : List String) :
    ∀ (s : TCState) (u : String),
      ((group, u) ∈ (applyOps (adds.map (Op.addMembership group)) s).membership ↔
        (group, u) ∈ s.membership ∨ u ∈ adds) := by
  induction adds with
  | nil =>
    intro s u
    simp [applyOps]
  | cons a rest ih =>
    intro s u
    have hstep : applyOps ((a :: rest).map (Op.addMembership group)) s
        = applyOps (rest.map (Op.addMembership group))
            (applyOp s (Op.addMembership group a)) := rfl
    rw [hstep, ih]
    simp only [applyOp, List.mem_append, List.mem_singleton, Prod.mk.injEq,
      List.mem_cons, true_and]
    tauto

theorem applyOps_removes_mem (group : String) (removes : List String) :
    ∀ (s : TCState) (u : String),
      ((group, u) ∈ (applyOps (removes.map (Op.removeMembership group)) s).membership ↔
        (group, u) ∈ s.membership ∧ u ∉ removes) := by
  induction removes with
  | nil =>
    intro s u
    simp [applyOps]
  | cons r rest ih =>
    intro s u
    have hstep : applyOps ((r :: rest).map (Op.removeMembership group)) s
        = applyOps (rest.map (Op.removeMembership group))
            (applyOp s (Op.removeMembership group r)) := rfl
    rw [hstep, ih]
    simp only [applyOp, remove_user_from_group, List.mem_filter, List.mem_cons,
      Bool.not_eq_true', Bool.and_eq_false_iff, beq_eq_false_iff_ne, ne_eq]
    tauto

/-- C8: applying the mutation plan computed from the desired usernames and
the observed members of a group, and recomputing the diff against the
updated observed members, yields the empty plan — both the additions and
the removals of a second pass are empty. -/
theorem C8_second_pass_empty (s : TCState) (group : String) (dkeys : List String) :
    toAdd dkeys (membersOf group (applyOps (groupPlan group dkeys (membersOf group s)) s))
      = [] ∧
    toRemove dkeys (membersOf group (applyOps (groupPlan group dkeys (membersOf group s)) s))
      = [] := by
  have hchar : ∀ u,
      (u ∈ membersOf group (applyOps (groupPlan group dkeys (membersOf group s)) s) ↔
        u ∈ dkeys) := by
    intro u
    rw [mem_membersOf]
    unfold groupPlan
    rw [applyOps_append_split, applyOps_removes_mem, applyOps_adds_mem]
    have hadd : u ∈ toAdd dkeys (membersOf group s) ↔
        u ∈ dkeys ∧ ¬ u ∈ membersOf group s := by
      simp [toAdd]
    have hrem : u ∈ toRemove dkeys (membersOf group s) ↔
        u ∈ membersOf group s ∧ ¬ u ∈ dkeys := by
      simp [toRemove]
    rw [hadd, hrem, ← mem_membersOf u group s]
    by_cases hd : u ∈ dkeys <;> by_cases ho : u ∈ membersOf group s <;>
      simp [hd, ho]
  constructor
  · unfold toAdd
    rw [List.filter_eq_nil_iff]
    intro u hu
    have hm := (hchar u).mpr hu
    simp [hm]
  · unfold toRemove
    rw [List.filter_eq_nil_iff]
    intro u hu
    have hm := (hchar u).mp hu
    simp [hm]

theorem crawl_visited_subset (sub : String → List String) (univ : List String) :
    ∀ (visited pending : List String), ∀ x ∈ visited, x ∈ crawl sub univ visited pending := by
  intro visited pending
  induction visited, pending using crawl.induct sub univ with
  | case1 visited =>
    intro x hx
    simp only [crawl]
    exact hx
  | case2 visited g rest h ih =>
    intro x hx
    simp only [crawl]
    rw [if_pos h]
    exact ih x hx
  | case3 visited g rest h1 h2 ih =>
    intro x hx
    simp only [crawl]
    rw [if_neg h1, if_pos h2]
    exact ih x (List.mem_cons_of_mem _ hx)
  | case4 visited g rest h1 h2 ih =>
    intro x hx
    simp only [crawl]
    rw [if_neg h1, if_neg h2]
    exact ih x hx

theorem crawl_pending_mem (sub : String → List String) (univ : List String) :
    ∀ (visited pending : List String), ∀ x ∈ pending, x ∈ univ →
      x ∈ crawl sub univ visited pending := by
  intro visited pending
  induction visited, pending using crawl.induct sub univ with
  | case1 visited =>
    intro x hx
    cases hx
  | case2 visited g rest h ih =>
    intro x hx hu
    simp only [crawl]
    rw [if_pos h]
    rcases List.mem_cons.mp hx with rfl | hx
    · exact crawl_visited_subset sub univ visited rest x h
    · exact ih x hx hu
  | case3 visited g rest h1 h2 ih =>
    intro x hx hu
    simp only [crawl]
    rw [if_neg h1, if_pos h2]
    rcases List.mem_cons.mp hx with rfl | hx
    · exact crawl_visited_subset sub univ _ _ x (List.mem_cons_self _ _)
    · exact ih x (List.mem_append_right _ hx) hu
  | case4 visited g rest h1 h2 ih =>
    intro x hx hu
    simp only [crawl]
    rw [if_neg h1, if_neg h2]
    rcases List.mem_cons.mp hx with rfl | hx
    · exact absurd hu h2
    · exact ih x hx hu

theorem crawl_sound (sub : String → List String) (univ : List String) :
    ∀ (visited pending : List String) (x : String),
      x ∈ crawl sub univ visited pending →
      x ∈ visited ∨ ∃ g ∈ pending, Reach sub g x := by
  intro visited pending
  induction visited, pending using crawl.induct sub univ with
  | case1 visited =>
    intro x hx
    simp only [crawl] at hx
    exact Or.inl hx
  | case2 visited g rest h ih =>
    intro x hx
    simp only [crawl] at hx
    rw [if_pos h] at hx
    rcases ih x hx with hv | ⟨g', hg', hr⟩
    · exact Or.inl hv
    · exact Or.inr ⟨g', List.mem_cons_of_mem _ hg', hr⟩
  | case3 visited g rest h1 h2 ih =>
    intro x hx
    simp only [crawl] at hx
    rw [if_neg h1, if_pos h2] at hx
    rcases ih x hx with hv | ⟨g', hg', hr⟩
    · rcases List.mem_cons.mp hv with rfl | hv
      · exact Or.inr ⟨x, List.mem_cons_self _ _, Reach.refl x⟩
      · exact Or.inl hv
    · rcases List.mem_append.mp hg' with hg' | hg'
      · exact Or.inr ⟨g, List.mem_cons_self _ _, Reach.tail g g' x hg' hr⟩
      · exact Or.inr ⟨g', List.mem_cons_of_mem _ hg', hr⟩
  | case4 visited g rest h1 h2 ih =>
    intro x hx
    simp only [crawl] at hx
    rw [if_neg h1, if_neg h2] at hx
    rcases ih x hx with hv | ⟨g', hg', hr⟩
    · exact Or.inl hv
    · exact Or.inr ⟨g', List.mem_cons_of_mem _ hg', hr⟩

theorem crawl_mem_univ (sub : String → List String) (univ : List String) :
    ∀ (visited pending : List String) (x : String),
      x ∈ crawl sub univ visited pending → x ∈ visited ∨ x ∈ univ := by
  intro visited pending
  induction visited, pending using crawl.induct sub univ with
  | case1 visited =>
    intro x hx
    simp only [crawl] at hx
    exact Or.inl hx
  | case2 visited g rest h ih =>
    intro x hx
    simp only [crawl] at hx
    rw [if_pos h] at hx
    exact ih x hx
  | case3 visited g rest h1 h2 ih =>
    intro x hx
    simp only [crawl] at hx
    rw [if_neg h1, if_pos h2] at hx
    rcases ih x hx with hv | hu
    · rcases List.mem_cons.mp hv with rfl | hv
      · exact Or.inr h2
      · exact Or.inl hv
    · exact Or.inr hu
  | case4 visited g rest h1 h2 ih =>
    intro x hx
    simp only [crawl] at hx
    rw [if_neg h1, if_neg h2] at hx
    exact ih x hx

theorem crawl_closed (sub : String → List String) (univ : List String) :
    ∀ (visited pending : List String),
      (∀ v ∈ visited, ∀ w ∈ sub v, w ∈ univ → w ∈ visited ∨ w ∈ pending) →
      ∀ v ∈ crawl sub univ visited pending, ∀ w ∈ sub v, w ∈ univ →
        w ∈ crawl sub univ visited pending := by
  intro visited pending
  induction visited, pending using crawl.induct sub univ with
  | case1 visited =>
    intro hinv v hv w hw hu
    simp only [crawl] at hv ⊢
    rcases hinv v hv w hw hu with h | h
    · exact h
    · cases h
  | case2 visited g rest h ih =>
    intro hinv
    simp only [crawl]
    rw [if_pos h]
    apply ih
    intro v hv w hw hu
    rcases hinv v hv w hw hu with hw' | hw'
    · exact Or.inl hw'
    · rcases List.mem_cons.mp hw' with rfl | hw'
      · exact Or.inl h
      · exact Or.inr hw'
  | case3 visited g rest h1 h2 ih =>
    intro hinv
    simp only [crawl]
    rw [if_neg h1, if_pos h2]
    apply ih
    intro v hv w hw hu
    rcases List.mem_cons.mp hv with rfl | hv
    · exact Or.inr (List.mem_append_left _ hw)
    · rcases hinv v hv w hw hu with hw' | hw'
      · exact Or.inl (List.mem_cons_of_mem _ hw')
      · rcases List.mem_cons.mp hw' with rfl | hw'
        · exact Or.inl (List.mem_cons_self _ _)
        · exact Or.inr (List.mem_append_right _ hw')
  | case4 visited g rest h1 h2 ih =>
    intro hinv
    simp only [crawl]
    rw [if_neg h1, if_neg h2]
    apply ih
    intro v hv w hw hu
    rcases hinv v hv w hw hu with hw' | hw'
    · exact Or.inl hw'
    · rcases List.mem_cons.mp hw' with rfl | hw'
      · exact absurd hu h2
      · exact Or.inr hw'

theorem crawl_nodup (sub : String → List String) (univ : List String) :
    ∀ (visited pending : List String), visited.Nodup →
      (crawl sub univ visited pending).Nodup := by
  intro visited pending
  induction visited, pending using crawl.induct sub univ with
  | case1 visited =>
    intro hnd
    simp only [crawl]
    exact hnd
  | case2 visited g rest h ih =>
    intro hnd
    simp only [crawl]
    rw [if_pos h]
    exact ih hnd
  | case3 visited g rest h1 h2 ih =>
    intro hnd
    simp only [crawl]
    rw [if_neg h1, if_pos h2]
    exact ih (List.nodup_cons.mpr ⟨h1, hnd⟩)
  | case4 visited g rest h1 h2 ih =>
    intro hnd
    simp only [crawl]
    rw [if_neg h1, if_neg h2]
    exact ih hnd

/-- C6: the recursive (nested-group) membership resolution terminates on
every directory, cyclic graphs included, visiting each group at most once
(the visited list is duplicate-free), and returns the correct finite
member set: a group is visited exactly when it is reachable from the
queried group along subgroup references, and the returned user entries
are exactly the members of the reachable groups. -/
theorem C6_recursive_resolution_correct (d : ADDirectory) (root : String)
    (hroot : root ∈ d.groups)
    (hclosed : ∀ g ∈ d.groups, ∀ w ∈ d.sub g, w ∈ d.groups) :
    (∀ g, g ∈ transitive_groups d root ↔ Reach d.sub root g) ∧
    (transitive_groups d root).Nodup ∧
    (∀ e, e ∈ transitive_users d root ↔ ∃ g, Reach d.sub root g ∧ e ∈ d.users g) := by
  have hgroups : ∀ g, g ∈ transitive_groups d root ↔ Reach d.sub root g := by
    intro g
    constructor
    · intro hg
      rcases crawl_sound d.sub d.groups [] [root] g hg with h | ⟨g', hg', hr⟩
      · cases h
      · rw [List.mem_singleton] at hg'
        rw [hg'] at hr
        exact hr
    · intro hr
      have hrootR : root ∈ transitive_groups d root :=
        crawl_pending_mem d.sub d.groups [] [root] root (List.mem_singleton.mpr rfl) hroot
      have hclosR : ∀ v ∈ transitive_groups d root, ∀ w ∈ d.sub v, w ∈ d.groups →
          w ∈ transitive_groups d root := by
        apply crawl_closed
        intro v hv
        cases hv
      have hsubU : ∀ v ∈ transitive_groups d root, v ∈ d.groups := by
        intro v hv
        rcases crawl_mem_univ d.sub d.groups [] [root] v hv with h | h
        · cases h
        · exact h
      have haux : ∀ a b, Reach d.sub a b →
          a ∈ transitive_groups d root → b ∈ transitive_groups d root := by
        intro a b hab
        induction hab with
        | refl g0 =>
          intro h
          exact h
        | tail g0 w x hsub hr ih =>
          intro hg0
          exact ih (hclosR g0 hg0 w hsub (hclosed g0 (hsubU g0 hg0) w hsub))
      exact haux root g hr hrootR
  refine ⟨hgroups, crawl_nodup d.sub d.groups [] [root] List.nodup_nil, ?_⟩
  intro e
  unfold transitive_users
  rw [List.mem_flatten]
  constructor
  · rintro ⟨l, hl, he⟩
    rcases List.mem_map.mp hl with ⟨g, hg, rfl⟩
    exact ⟨g, (hgroups g).mp hg, he⟩
  · rintro ⟨g, hr, he⟩
    exact ⟨d.users g, List.mem_map_of_mem _ ((hgroups g).mpr hr), he⟩

/-- C6 witness: the correctness theorem applied to the cyclic directory
`A ⊂ B ⊂ A`; the hypotheses (the root is a directory group, subgroup
references stay inside the directory) are discharged by evaluation, and
the traversal of the cycle evaluates to the two groups, each visited
once, with both users resolved. -/
theorem C6_recursive_resolution_correct_witness :
    (("A" ∈ dir6.groups) ∧ (∀ g ∈ dir6.groups, ∀ w ∈ dir6.sub g, w ∈ dir6.groups)) ∧
    ((∀ g, g ∈ transitive_groups dir6 "A" ↔ Reach dir6.sub "A" g) ∧
     (transitive_groups dir6 "A").Nodup ∧
     (∀ e, e ∈ transitive_users dir6 "A" ↔ ∃ g, Reach dir6.sub "A" g ∧ e ∈ dir6.users g)) :=
  ⟨⟨by decide, by decide⟩,
   C6_recursive_resolution_correct dir6 "A" (by decide) (by decide)⟩
